import Mathlib

/-!
Verification of the heaptrack-trim stream rewriter (`src/main.rs`).

The program is a line-oriented filter over a heaptrack trace.  We embed it
shallowly: bytes are `Nat` (ASCII codes), a line is a `List Nat` (including its
trailing newline byte when present, exactly as `read_until` delivers it), and
the input is the list of such lines.  Machine `u64` arithmetic is `Nat` with
explicit `% 2 ^ 64` where the Rust code can wrap.  Fallible operations
(`unwrap` on a parse error or a missing argument, a firing `debug_assert!`)
return `none`.

Relevant ASCII codes used throughout: 99 is the letter c, 97 is the letter a,
43 is the plus sign, 45 is the minus sign, 32 is the space, 10 is the newline,
48 to 57 are the decimal digits, 97 to 102 are the lowercase hex letters,
65 to 70 are the uppercase hex letters.
-/

/-- Rust `u8::is_ascii_whitespace`: space, tab, newline, form feed, carriage
return. -/
def isAsciiWhitespace (b : Nat) : Bool :=
  b == 32 || b == 9 || b == 10 || b == 12 || b == 13

/-- Rust `<[u8]>::trim_ascii_end`: drop trailing ASCII whitespace bytes. -/
def trim_ascii_end (l : List Nat) : List Nat :=
  (l.reverse.dropWhile isAsciiWhitespace).reverse

/-- Embedding of `line.trim_ascii_end().split(|x| *x == b' ').skip(1).next()`:
the second space-separated chunk of the trimmed line, i.e. the bytes strictly
between the first space and the following space (or the trimmed end); `none`
when the trimmed line contains no space at all (then `split` yields a single
chunk and `skip(1).next()` is `None`). -/
def argOf (line : List Nat) : Option (List Nat) :=
  match (trim_ascii_end line).dropWhile (fun c => c != 32) with
  | [] => none
  | _ :: rest => some (rest.takeWhile (fun c => c != 32))

/-- One hex digit of `parse_hex`: the value of an ASCII hex digit byte,
`none` for any other byte (the `_ => return Err(())` arm). -/
def hexDigitVal (c : Nat) : Option Nat :=
  if 48 ≤ c ∧ c ≤ 57 then some (c - 48)
  else if 97 ≤ c ∧ c ≤ 102 then some (10 + (c - 97))
  else if 65 ≤ c ∧ c ≤ 70 then some (10 + (c - 65))
  else none

/-- Embedding of `parse_hex` (src/main.rs:172-186): fold over the bytes with
`rv = (rv * 16) | digit`, the multiplication wrapping at `2 ^ 64` as the Rust
`u64` does.  An invalid byte aborts with `none` (`unwrap` panics on it). -/
def parse_hex (input : List Nat) : Option Nat :=
  input.foldl
    (fun acc c =>
      match acc, hexDigitVal c with
      | some rv, some d => some ((rv * 16 % 2 ^ 64) ||| d)
      | _, _ => none)
    (some 0)

/-- Rust `u64::to_be_bytes`: the eight big-endian bytes of a `u64`. -/
def u64_to_be_bytes (x : Nat) : List Nat :=
  [x / 2 ^ 56 % 256, x / 2 ^ 48 % 256, x / 2 ^ 40 % 256, x / 2 ^ 32 % 256,
   x / 2 ^ 24 % 256, x / 2 ^ 16 % 256, x / 2 ^ 8 % 256, x % 256]

/-- The byte written for one nonzero nibble in `write_hex`:
`if c < 10 { b'0' + c } else { b'a' + (c - 10) }`. -/
def hexNibbleChar (c : Nat) : Nat :=
  if c < 10 then 48 + c else 97 + (c - 10)

/-- The inner loop body of `write_hex`: a nibble is written only `if c != 0`
-- note this drops every zero nibble, wherever it occurs. -/
def emitNibble (c : Nat) : List Nat :=
  if c != 0 then [hexNibbleChar c] else []

/-- Embedding of `write_hex` (src/main.rs:190-206): `"0"` for zero, else for
each big-endian byte emit the high then the low nibble, skipping nibbles that
are zero. -/
def write_hex (input : Nat) : List Nat :=
  if input == 0 then [48]
  else (u64_to_be_bytes input).foldl
    (fun acc byte => acc ++ emitNibble (byte / 16) ++ emitNibble (byte % 16)) []

/-- Wrapping `u64` subtraction, for `current_abs_timestamp_ms - skip_timestamp`
(release builds wrap on underflow). -/
def u64_sub (a b : Nat) : Nat :=
  (a + (2 ^ 64 - b % 2 ^ 64)) % 2 ^ 64

/-- The configuration `run_main` receives: the skip threshold in milliseconds,
the preserve-time flag, and whether `debug_assert!` is compiled in
(`cfg(debug_assertions)`). -/
structure Cfg where
  skip_timestamp : Nat
  preserve_time : Bool
  debug_assertions : Bool
deriving DecidableEq, Repr

/-- The four mutable scalars of the `run_main` loop. -/
structure St where
  allocation_index_correction : Nat
  largest_written_allocation_index : Nat
  is_skipping : Bool
  current_abs_timestamp_ms : Nat
deriving DecidableEq, Repr

/-- Result of processing one line: the successor state, the bytes this line
contributed to the output, and the rebased allocation index written by this
line, when the line took the event-write branch. -/
structure Step where
  st : St
  out : List Nat
  written : Option Nat
deriving DecidableEq, Repr

/-- Embedding of one iteration of the `run_main` loop (src/main.rs:94-163),
dispatching on the first byte of the line.  `none` models a panic: a missing
argument, a malformed hex number, or a firing `debug_assert!`. -/
def processLine (cfg : Cfg) (st : St) (line : List Nat) : Option Step :=
  match line.head? with
  | none => none
  | some instruction =>
    if instruction == 99 then
      match argOf line with
      | none => none
      | some arg =>
        match parse_hex arg with
        | none => none
        | some t =>
          let skipping2 :=
            if st.is_skipping && decide (cfg.skip_timestamp < t) then false
            else st.is_skipping
          let out :=
            if skipping2 then []
            else if cfg.preserve_time then line
            else [99, 32] ++ write_hex (u64_sub t cfg.skip_timestamp) ++ [10]
          some ⟨⟨st.allocation_index_correction,
                 st.largest_written_allocation_index, skipping2, t⟩, out, none⟩
    else if instruction == 43 || instruction == 45 then
      match argOf line with
      | none => none
      | some arg =>
        match parse_hex arg with
        | none => none
        | some allocation_index =>
          if st.allocation_index_correction < allocation_index then
            if st.is_skipping then
              some ⟨⟨allocation_index, st.largest_written_allocation_index,
                     st.is_skipping, st.current_abs_timestamp_ms⟩, [], none⟩
            else
              if cfg.debug_assertions &&
                  decide (st.largest_written_allocation_index + 1
                    < allocation_index - st.allocation_index_correction - 1) then
                none
              else
                some ⟨⟨st.allocation_index_correction,
                       max (allocation_index - st.allocation_index_correction - 1)
                         st.largest_written_allocation_index,
                       st.is_skipping, st.current_abs_timestamp_ms⟩,
                      [instruction, 32]
                        ++ write_hex
                          (allocation_index - st.allocation_index_correction - 1)
                        ++ [10],
                      some (allocation_index
                        - st.allocation_index_correction - 1)⟩
          else
            some ⟨st, [], none⟩
    else if instruction == 97 then
      some ⟨st, if st.is_skipping then [] else line, none⟩
    else
      some ⟨st, line, none⟩

/-- Result of a whole run: final state, the per-line output chunks (index i is
what line i contributed, `[]` for a dropped line), and the rebased event
indices written, in write order. -/
structure RunOut where
  st : St
  chunks : List (List Nat)
  written : List Nat
deriving DecidableEq, Repr

/-- The `run_main` loop from a given state. -/
def runFrom (cfg : Cfg) (st : St) : List (List Nat) → Option RunOut
  | [] => some ⟨st, [], []⟩
  | line :: rest =>
    match processLine cfg st line with
    | none => none
    | some s =>
      match runFrom cfg s.st rest with
      | none => none
      | some r => some ⟨r.st, s.out :: r.chunks, s.written.toList ++ r.written⟩

/-- The initial state of `run_main` (src/main.rs:85-92): correction 0,
largest written index 0, skipping, elapsed time 0. -/
def initialState : St := ⟨0, 0, true, 0⟩

/-- Embedding of `run_main`, on an input already split into lines the way
`read_until(b'\x0a')` splits it. -/
def run_main (cfg : Cfg) (lines : List (List Nat)) : Option RunOut :=
  runFrom cfg initialState lines

/-- The byte stream actually written to the output: the concatenation of the
per-line chunks. -/
def runOutput (cfg : Cfg) (lines : List (List Nat)) : Option (List Nat) :=
  (run_main cfg lines).map (fun r => r.chunks.flatten)

/-- The sixteen big-endian nibbles of a `u64` value. -/
def nibs16 (x : Nat) : List Nat :=
  [x / 2 ^ 60 % 16, x / 2 ^ 56 % 16, x / 2 ^ 52 % 16, x / 2 ^ 48 % 16,
   x / 2 ^ 44 % 16, x / 2 ^ 40 % 16, x / 2 ^ 36 % 16, x / 2 ^ 32 % 16,
   x / 2 ^ 28 % 16, x / 2 ^ 24 % 16, x / 2 ^ 20 % 16, x / 2 ^ 16 % 16,
   x / 2 ^ 12 % 16, x / 2 ^ 8 % 16, x / 2 ^ 4 % 16, x % 16]

/-- Modelled from the spec: `encode` "writes the minimal-width lowercase hex
representation with no leading zeros, and writes literally `"0"` for the value
zero".  For a `u64` value this is the sixteen big-endian nibbles with the
leading zeros stripped.  Used only to compare `write_hex` against the spec. -/
def specMinimalHex (n : Nat) : List Nat :=
  if n = 0 then [48]
  else ((nibs16 n).dropWhile (fun c => c == 0)).map hexNibbleChar

/-- C1: hex round trip.  The claim asserts `encode(decode(x)) == x` for the
canonical hex strings of 0, 1, 0xa, 0x7d0, 0x3e8 and `u64::MAX`.  It holds for
five of the six values but FAILS for `7d0`: `parse_hex` decodes it to 2000,
and `write_hex` re-encodes 2000 as `7d`, because `write_hex` drops every zero
nibble, not only the leading ones.  This theorem evaluates the code at all six
values, exhibiting the failure. -/
theorem c1_hex_round_trip_fails_at_7d0 :
    parse_hex [48] = some 0 ∧ write_hex 0 = [48] ∧
    parse_hex [49] = some 1 ∧ write_hex 1 = [49] ∧
    parse_hex [97] = some 10 ∧ write_hex 10 = [97] ∧
    parse_hex [51, 101, 56] = some 1000 ∧ write_hex 1000 = [51, 101, 56] ∧
    parse_hex (List.replicate 16 102) = some (2 ^ 64 - 1) ∧
    write_hex (2 ^ 64 - 1) = List.replicate 16 102 ∧
    parse_hex [55, 100, 48] = some 2000 ∧
    write_hex 2000 = [55, 100] ∧
    write_hex 2000 ≠ [55, 100, 48] := by
  decide

/-- C2: the claim says the encoder writes the minimal-width lowercase hex
representation for every `u64`.  It FAILS already at 16: `write_hex 16`
produces `"1"` while minimal hex is `"10"`, because the `if c != 0` test in
`write_hex` skips zero nibbles everywhere, not only at the front. -/
theorem c2_write_hex_not_minimal_at_16 :
    write_hex 16 = [49] ∧ specMinimalHex 16 = [49, 48] ∧
    write_hex 16 ≠ specMinimalHex 16 := by
  decide

/-- The single-line trace `c 3f8` (elapsed 1016 ms), used to exhibit the C8
failure with skip threshold 1000. -/
def timeLine3f8 : List (List Nat) := [[99, 32, 51, 102, 56, 10]]

/-- C8: time-command handling.  The claim's skipping/preserve-time clauses
match the code, but the rewritten time command is NOT written "in the same
minimal hex encoding": with threshold 1000 and elapsed 0x3f8 = 1016 the
rewritten argument is 16, which minimal hex renders as `10`, yet the program
writes `c 1` (the zero nibble of 0x10 is dropped by `write_hex`), so the
emitted argument re-parses as 1, not 16. -/
theorem c8_time_rewrite_wrong_encoding :
    runOutput ⟨1000, false, false⟩ timeLine3f8 = some [99, 32, 49, 10] ∧
    u64_sub 1016 1000 = 16 ∧
    specMinimalHex 16 = [49, 48] ∧
    [99, 32, 49, 10] ≠ [99, 32] ++ specMinimalHex 16 ++ [10] := by
  decide

/-- The C9 scenario input: lines `+ 0`, `c 7d0`, `+ 1`, `+ 2`, `+ 3`, `+ 4`. -/
def scenarioInput : List (List Nat) :=
  [[43, 32, 48, 10], [99, 32, 55, 100, 48, 10], [43, 32, 49, 10],
   [43, 32, 50, 10], [43, 32, 51, 10], [43, 32, 52, 10]]

/-- The C9 scenario output bytes: `c 3e8`, `+ 0`, `+ 1`, `+ 2`, `+ 3`,
each newline-terminated. -/
def scenarioOutput : List Nat :=
  [99, 32, 51, 101, 56, 10, 43, 32, 48, 10, 43, 32, 49, 10, 43, 32, 50, 10,
   43, 32, 51, 10]

/-- C9 counterexample: the claim lists the correct output lines but counts
them as "four lines".  The output of the scenario run consists of the five
listed lines (five newline bytes), not four. -/
theorem c9_scenario_is_five_lines_not_four :
    runOutput ⟨1000, false, true⟩ scenarioInput = some scenarioOutput ∧
    scenarioOutput.count 10 = 5 ∧ (5 : Nat) ≠ 4 := by
  decide

/-- C9 as amended: with skip threshold 1000 ms and preserve-time off, the
scenario input produces exactly the five lines `c 3e8`, `+ 0`, `+ 1`, `+ 2`,
`+ 3`: the original `+ 0` is dropped, the time line is rewritten from `7d0`
to `3e8`, and `+ 1`..`+ 4` rebase to `0`..`3`. -/
theorem c9_scenario_output :
    runOutput ⟨1000, false, true⟩ scenarioInput = some scenarioOutput := by
  decide

/-- A line that triggers the skip-to-emit transition when it is processed in
the skipping state: a time command whose parsed timestamp strictly exceeds
the threshold. -/
def isFlipLineB (skip : Nat) (l : List Nat) : Bool :=
  (l.head? == some 99) &&
    (match argOf l with
     | some a =>
       (match parse_hex a with
        | some v => decide (skip < v)
        | none => false)
     | none => false)

/-- Processing one line turns `is_skipping` off exactly when it was on and the
line is a triggering time command; it never turns it back on. -/
theorem processLine_skip (cfg : Cfg) (st : St) (line : List Nat) (s : Step)
    (h : processLine cfg st line = some s) :
    s.st.is_skipping = (st.is_skipping && !(isFlipLineB cfg.skip_timestamp line)) := by
  unfold processLine at h
  split at h
  next hhead => exact absurd h (by simp)
  next instruction hhead =>
    split at h
    next hb =>
      split at h
      next harg => exact absurd h (by simp)
      next arg harg =>
        split at h
        next hparse => exact absurd h (by simp)
        next t hparse =>
          cases h
          simp only [isFlipLineB, hhead, harg, hparse]
          have hb2 : instruction = 99 := by simpa using hb
          subst hb2
          by_cases hc : cfg.skip_timestamp < t <;>
            cases hst : st.is_skipping <;> simp [hc, hst]
    next hb =>
      have hflip : isFlipLineB cfg.skip_timestamp line = false := by
        simp only [isFlipLineB, hhead]
        have : ¬ instruction = 99 := by simpa using hb
        simp [this]
      rw [hflip]
      split at h
      next hpm =>
        split at h
        next harg => exact absurd h (by simp)
        next arg harg =>
          split at h
          next hparse => exact absurd h (by simp)
          next v hparse =>
            split at h
            next hgt =>
              split at h
              next hsk => cases h; simp [hsk]
              next hsk =>
                split at h
                next hassert => exact absurd h (by simp)
                next hassert => cases h; simp [Bool.not_eq_true] at hsk; simp [hsk]
            next hgt => cases h; simp
      next hpm =>
        split at h
        next ha => cases h; simp
        next ha => cases h; simp

/-- Once the emitting phase is reached, processing any line keeps
`is_skipping` off and leaves the correction offset untouched: the offset is
frozen at the transition. -/
theorem processLine_frozen (cfg : Cfg) (st : St) (line : List Nat) (s : Step)
    (h : processLine cfg st line = some s) (hsk : st.is_skipping = false) :
    s.st.is_skipping = false ∧
      s.st.allocation_index_correction = st.allocation_index_correction := by
  unfold processLine at h
  split at h
  next hhead => exact absurd h (by simp)
  next instruction hhead =>
    split at h
    next hb =>
      split at h
      next harg => exact absurd h (by simp)
      next arg harg =>
        split at h
        next hparse => exact absurd h (by simp)
        next t hparse => cases h; simp [hsk]
    next hb =>
      split at h
      next hpm =>
        split at h
        next harg => exact absurd h (by simp)
        next arg harg =>
          split at h
          next hparse => exact absurd h (by simp)
          next v hparse =>
            split at h
            next hgt =>
              split at h
              next hsk2 => rw [hsk] at hsk2; exact absurd hsk2 (by simp)
              next hsk2 =>
                split at h
                next hassert => exact absurd h (by simp)
                next hassert => cases h; exact ⟨hsk, rfl⟩
            next hgt => cases h; exact ⟨hsk, rfl⟩
      next hpm =>
        split at h
        next ha => cases h; exact ⟨hsk, rfl⟩
        next ha => cases h; exact ⟨hsk, rfl⟩

/-- An allocation-event line processed while skipping writes nothing. -/
theorem processLine_event_skipping (cfg : Cfg) (st : St) (line : List Nat)
    (s : Step) (instruction : Nat) (h : processLine cfg st line = some s)
    (hhead : line.head? = some instruction)
    (hpm : instruction = 43 ∨ instruction = 45)
    (hsk : st.is_skipping = true) : s.out = [] := by
  unfold processLine at h
  split at h
  next hh => rw [hhead] at hh; exact absurd hh (by simp)
  next instruction2 hh =>
    rw [hhead] at hh
    injection hh with hi
    subst hi
    split at h
    next hb => rcases hpm with h1 | h1 <;> (subst h1; simp at hb)
    next hb =>
      split at h
      next hpm2 =>
        split at h
        next harg => exact absurd h (by simp)
        next arg harg =>
          split at h
          next hparse => exact absurd h (by simp)
          next v hparse =>
            split at h
            next hgt => cases h; rfl
            next hgt => cases h; rfl
      next hpm2 => rcases hpm with h1 | h1 <;> (subst h1; simp at hpm2)

/-- An allocation-event line whose parsed index does not exceed the current
correction offset is dropped: nothing is written and the state is unchanged,
whatever the skip state. -/
theorem processLine_event_low (cfg : Cfg) (st : St) (line : List Nat)
    (s : Step) (instruction : Nat) (a : List Nat) (v : Nat)
    (h : processLine cfg st line = some s)
    (hhead : line.head? = some instruction)
    (hpm : instruction = 43 ∨ instruction = 45)
    (harg : argOf line = some a) (hparse : parse_hex a = some v)
    (hle : v ≤ st.allocation_index_correction) :
    s.out = [] ∧ s.st = st ∧ s.written = none := by
  unfold processLine at h
  split at h
  next hh => rw [hhead] at hh; exact absurd hh (by simp)
  next instruction2 hh =>
    rw [hhead] at hh
    injection hh with hi
    subst hi
    split at h
    next hb => rcases hpm with h1 | h1 <;> (subst h1; simp at hb)
    next hb =>
      split at h
      next hpm2 =>
        split at h
        next harg2 => exact absurd h (by simp)
        next arg harg2 =>
          split at h
          next hparse2 => exact absurd h (by simp)
          next v2 hparse2 =>
            rw [harg] at harg2
            injection harg2 with ha2
            subst ha2
            rw [hparse] at hparse2
            injection hparse2 with hv2
            subst hv2
            rw [if_neg (by omega)] at h
            cases h
            exact ⟨rfl, rfl, rfl⟩
      next hpm2 => rcases hpm with h1 | h1 <;> (subst h1; simp at hpm2)

/-- A line whose leading byte is none of c, a, plus, minus passes through
verbatim: the state is unchanged and the chunk is the whole line. -/
theorem processLine_passthrough (cfg : Cfg) (st : St) (line : List Nat)
    (instruction : Nat) (hhead : line.head? = some instruction)
    (h99 : instruction ≠ 99) (h97 : instruction ≠ 97)
    (h43 : instruction ≠ 43) (h45 : instruction ≠ 45) :
    processLine cfg st line = some ⟨st, line, none⟩ := by
  simp [processLine, hhead, h99, h97, h43, h45]

/-- With debug assertions compiled in, one line either writes no event index
and keeps `largest_written_allocation_index`, or writes an index at most one
above it and updates it to the maximum -- the `debug_assert!` aborts
otherwise. -/
theorem processLine_written (cfg : Cfg) (st : St) (line : List Nat) (s : Step)
    (h : processLine cfg st line = some s) (hdbg : cfg.debug_assertions = true) :
    (s.written = none ∧
      s.st.largest_written_allocation_index
        = st.largest_written_allocation_index) ∨
    (∃ v, s.written = some v ∧
      v ≤ st.largest_written_allocation_index + 1 ∧
      s.st.largest_written_allocation_index
        = max v st.largest_written_allocation_index) := by
  unfold processLine at h
  split at h
  next hhead => exact absurd h (by simp)
  next instruction hhead =>
    split at h
    next hb =>
      split at h
      next harg => exact absurd h (by simp)
      next arg harg =>
        split at h
        next hparse => exact absurd h (by simp)
        next t hparse => cases h; exact Or.inl ⟨rfl, rfl⟩
    next hb =>
      split at h
      next hpm =>
        split at h
        next harg => exact absurd h (by simp)
        next arg harg =>
          split at h
          next hparse => exact absurd h (by simp)
          next v hparse =>
            split at h
            next hgt =>
              split at h
              next hsk => cases h; exact Or.inl ⟨rfl, rfl⟩
              next hsk =>
                split at h
                next hassert => exact absurd h (by simp)
                next hassert =>
                  cases h
                  refine Or.inr ⟨v - st.allocation_index_correction - 1,
                    rfl, ?_, rfl⟩
                  rw [hdbg] at hassert
                  simpa using hassert
            next hgt => cases h; exact Or.inl ⟨rfl, rfl⟩
      next hpm =>
        split at h
        next ha => cases h; exact Or.inl ⟨rfl, rfl⟩
        next ha => cases h; exact Or.inl ⟨rfl, rfl⟩

/-- Across a whole run, `is_skipping` ends up off exactly when it started off
or some processed line is a triggering time command. -/
theorem runFrom_skip (cfg : Cfg) (lines : List (List Nat)) :
    ∀ (st : St) (r : RunOut), runFrom cfg st lines = some r →
      r.st.is_skipping
        = (st.is_skipping && !(lines.any (isFlipLineB cfg.skip_timestamp))) := by
  induction lines with
  | nil =>
    intro st r h
    simp only [runFrom] at h
    injection h with h2
    subst h2
    simp
  | cons line rest ih =>
    intro st r h
    simp only [runFrom] at h
    split at h
    next => exact absurd h (by simp)
    next s hs =>
      split at h
      next => exact absurd h (by simp)
      next r2 hr2 =>
        injection h with h2
        subst h2
        dsimp only
        rw [ih s.st r2 hr2, processLine_skip cfg st line s hs]
        cases st.is_skipping <;>
          cases hf : isFlipLineB cfg.skip_timestamp line <;> simp [hf]

/-- Once `is_skipping` is off it stays off and the correction offset never
changes again, across any remaining run. -/
theorem runFrom_frozen (cfg : Cfg) (lines : List (List Nat)) :
    ∀ (st : St) (r : RunOut), runFrom cfg st lines = some r →
      st.is_skipping = false →
      r.st.is_skipping = false ∧
        r.st.allocation_index_correction = st.allocation_index_correction := by
  induction lines with
  | nil =>
    intro st r h hsk
    simp only [runFrom] at h
    injection h with h2
    subst h2
    exact ⟨hsk, rfl⟩
  | cons line rest ih =>
    intro st r h hsk
    simp only [runFrom] at h
    split at h
    next => exact absurd h (by simp)
    next s hs =>
      split at h
      next => exact absurd h (by simp)
      next r2 hr2 =>
        injection h with h2
        subst h2
        dsimp only
        obtain ⟨h1, h2⟩ := processLine_frozen cfg st line s hs hsk
        obtain ⟨h3, h4⟩ := ih s.st r2 hr2 h1
        exact ⟨h3, by rw [h4, h2]⟩

/-- Gap-freedom of a list of written rebased indices: each entry is at most
one above the running maximum, the maximum starting at `L`. -/
def noGapFromB (L : Nat) : List Nat → Bool
  | [] => true
  | v :: vs => decide (v ≤ L + 1) && noGapFromB (max v L) vs

/-- With debug assertions on, every successful run writes a gap-free sequence
of rebased indices, the running maximum starting at the incoming
`largest_written_allocation_index`. -/
theorem runFrom_written_nogap (cfg : Cfg) (lines : List (List Nat)) :
    ∀ (st : St) (r : RunOut), cfg.debug_assertions = true →
      runFrom cfg st lines = some r →
      noGapFromB st.largest_written_allocation_index r.written = true := by
  induction lines with
  | nil =>
    intro st r hdbg h
    simp only [runFrom] at h
    injection h with h2
    subst h2
    rfl
  | cons line rest ih =>
    intro st r hdbg h
    simp only [runFrom] at h
    split at h
    next => exact absurd h (by simp)
    next s hs =>
      split at h
      next => exact absurd h (by simp)
      next r2 hr2 =>
        injection h with h2
        subst h2
        dsimp only
        have hrest := ih s.st r2 hdbg hr2
        rcases processLine_written cfg st line s hs hdbg with ⟨hw, hl⟩ | ⟨v, hw, hv, hl⟩
        · rw [hl] at hrest
          simp [hw, hrest]
        · rw [hl] at hrest
          simp [hw, noGapFromB, hv, hrest]

/-- A pass-through line's chunk is the line itself, at the same position. -/
theorem runFrom_passthrough_chunk (cfg : Cfg) (lines : List (List Nat)) :
    ∀ (st : St) (r : RunOut) (i : Nat) (l : List Nat) (instruction : Nat),
      runFrom cfg st lines = some r → lines.get? i = some l →
      l.head? = some instruction → instruction ≠ 99 → instruction ≠ 97 →
      instruction ≠ 43 → instruction ≠ 45 → r.chunks.get? i = some l := by
  induction lines with
  | nil =>
    intro st r i l instr h hget
    simp at hget
  | cons line rest ih =>
    intro st r i l instr h hget hhead h99 h97 h43 h45
    simp only [runFrom] at h
    split at h
    next => exact absurd h (by simp)
    next s hs =>
      split at h
      next => exact absurd h (by simp)
      next r2 hr2 =>
        injection h with h2
        subst h2
        dsimp only
        cases i with
        | zero =>
          simp only [List.get?] at hget
          injection hget with hl
          subst hl
          rw [processLine_passthrough cfg st line instr hhead h99 h97 h43 h45] at hs
          injection hs with hs2
          subst hs2
          rfl
        | succ i2 =>
          simp only [List.get?] at hget
          simpa using ih s.st r2 i2 l instr hr2 hget hhead h99 h97 h43 h45

/-- In any run that reaches the emitting phase, an event line whose index is
at most the frozen correction offset contributes an empty chunk. -/
theorem runFrom_low_event_chunk (cfg : Cfg) (lines : List (List Nat)) :
    ∀ (st : St) (r : RunOut) (i : Nat) (l : List Nat) (instruction : Nat)
      (a : List Nat) (v : Nat),
      runFrom cfg st lines = some r → r.st.is_skipping = false →
      lines.get? i = some l → l.head? = some instruction →
      (instruction = 43 ∨ instruction = 45) → argOf l = some a →
      parse_hex a = some v → v ≤ r.st.allocation_index_correction →
      r.chunks.get? i = some [] := by
  induction lines with
  | nil =>
    intro st r i l instr a v h hrsk hget
    simp at hget
  | cons line rest ih =>
    intro st r i l instr a v h hrsk hget hhead hpm harg hparse hle
    simp only [runFrom] at h
    split at h
    next => exact absurd h (by simp)
    next s hs =>
      split at h
      next => exact absurd h (by simp)
      next r2 hr2 =>
        injection h with h2
        subst h2
        dsimp only at hrsk hle ⊢
        cases i with
        | zero =>
          simp only [List.get?] at hget
          injection hget with hl
          subst hl
          cases hsk : st.is_skipping with
          | true =>
            rw [processLine_event_skipping cfg st line s instr hs hhead hpm hsk]
            rfl
          | false =>
            obtain ⟨hf1, hf2⟩ := processLine_frozen cfg st line s hs hsk
            obtain ⟨hf3, hf4⟩ := runFrom_frozen cfg rest s.st r2 hr2 hf1
            have hle2 : v ≤ st.allocation_index_correction := by
              rw [hf4, hf2] at hle
              exact hle
            obtain ⟨ho, hst, hwr⟩ :=
              processLine_event_low cfg st line s instr a v hs hhead hpm harg
                hparse hle2
            rw [ho]
            rfl
        | succ i2 =>
          simp only [List.get?] at hget
          simpa using ih s.st r2 i2 l instr a v hr2 hrsk hget hhead hpm harg
            hparse hle

/-- C10: skip-state dynamics.  After processing any prefix of the input, the
run is emitting (skipping off) exactly when that prefix contains a time
command whose timestamp strictly exceeds the threshold.  In particular the
state starts as discarding (empty prefix), flips at the first such time
command, and never reverts afterwards. -/
theorem c10_skip_state_transition (cfg : Cfg) (lines : List (List Nat))
    (k : Nat) (r : RunOut)
    (h : runFrom cfg initialState (lines.take k) = some r) :
    r.st.is_skipping
      = !((lines.take k).any (isFlipLineB cfg.skip_timestamp)) := by
  have h2 := runFrom_skip cfg (lines.take k) initialState r h
  simpa [initialState] using h2

/-- Two time commands, 5 ms and then 2000 ms, threshold 1000 ms. -/
def linesC10W : List (List Nat) := [[99, 32, 53, 10], [99, 32, 55, 100, 48, 10]]

/-- The run result on `linesC10W` after both lines, threshold 1000. -/
def runC10W : RunOut :=
  ⟨⟨0, 0, false, 2000⟩, [[], [99, 32, 51, 101, 56, 10]], []⟩

/-- Witness for C10 at a concrete input: after both lines of `linesC10W` the
skip state is exactly the negation of "some prefix line flips". -/
theorem c10_skip_state_transition_witness :
    runC10W.st.is_skipping
      = !((linesC10W.take 2).any (isFlipLineB 1000)) :=
  c10_skip_state_transition ⟨1000, false, true⟩ linesC10W 2 runC10W (by decide)

/-- C7: pass-through.  In any completed run, a line whose leading byte is
none of c, a, plus, minus contributes itself, byte for byte, as the chunk at
its own position -- the output being the in-order concatenation of chunks,
such lines appear verbatim and in their original relative order. -/
theorem c7_pass_through (cfg : Cfg) (lines : List (List Nat)) (r : RunOut)
    (i : Nat) (l : List Nat) (instruction : Nat)
    (h : run_main cfg lines = some r) (hget : lines.get? i = some l)
    (hhead : l.head? = some instruction) (h99 : instruction ≠ 99)
    (h97 : instruction ≠ 97) (h43 : instruction ≠ 43) (h45 : instruction ≠ 45) :
    r.chunks.get? i = some l :=
  runFrom_passthrough_chunk cfg lines initialState r i l instruction h hget
    hhead h99 h97 h43 h45

/-- An `s`-command line between event lines, threshold 1000. -/
def linesC7W : List (List Nat) := [[115, 32, 120, 10], [43, 32, 48, 10]]

/-- The run result on `linesC7W`: the `s` line passes through while skipping,
the `+ 0` line is dropped. -/
def runC7W : RunOut := ⟨⟨0, 0, true, 0⟩, [[115, 32, 120, 10], []], []⟩

/-- Witness for C7 at a concrete input: the `s x` line appears verbatim as
chunk 0. -/
theorem c7_pass_through_witness :
    runC7W.chunks.get? 0 = some [115, 32, 120, 10] :=
  c7_pass_through ⟨1000, false, true⟩ linesC7W runC7W 0 [115, 32, 120, 10] 115
    (by decide) rfl rfl (by decide) (by decide) (by decide) (by decide)

/-- C6: drop-below-offset.  In any run that reached the emitting phase, every
event line (leading byte plus or minus) whose parsed index is at most the
frozen correction offset (the offset at the transition, which never changes
afterwards and is therefore the final `allocation_index_correction`)
contributes an empty chunk: no corresponding output line exists. -/
theorem c6_drop_below_frozen_offset (cfg : Cfg) (lines : List (List Nat))
    (r : RunOut) (i : Nat) (l : List Nat) (instruction : Nat) (a : List Nat)
    (v : Nat) (h : run_main cfg lines = some r)
    (hrsk : r.st.is_skipping = false) (hget : lines.get? i = some l)
    (hhead : l.head? = some instruction)
    (hpm : instruction = 43 ∨ instruction = 45) (harg : argOf l = some a)
    (hparse : parse_hex a = some v)
    (hle : v ≤ r.st.allocation_index_correction) :
    r.chunks.get? i = some [] :=
  runFrom_low_event_chunk cfg lines initialState r i l instruction a v h hrsk
    hget hhead hpm harg hparse hle

/-- Event index 5 while skipping, the flip, then a stale reference to index 3,
threshold 1000. -/
def linesC6W : List (List Nat) :=
  [[43, 32, 53, 10], [99, 32, 55, 100, 48, 10], [43, 32, 51, 10]]

/-- The run result on `linesC6W`: offset frozen at 5, the `+ 3` line dropped. -/
def runC6W : RunOut :=
  ⟨⟨5, 0, false, 2000⟩, [[], [99, 32, 51, 101, 56, 10], []], []⟩

/-- Witness for C6 at a concrete input: the `+ 3` line (index 3, at most the
frozen offset 5) contributes an empty chunk. -/
theorem c6_drop_below_frozen_offset_witness :
    runC6W.chunks.get? 2 = some [] :=
  c6_drop_below_frozen_offset ⟨1000, false, true⟩ linesC6W runC6W 2
    [43, 32, 51, 10] 43 [51] 3 (by decide) rfl rfl rfl (Or.inl rfl) rfl rfl
    (by decide)

/-- C5 counterexample: in a release build (debug assertions off, the shipped
configuration) the no-gap violation IS silently tolerated.  On `c 7d0` then
`+ 5` with threshold 1000 the run completes, writes the single rebased index
4 -- which exceeds the previously seen maximum 0 by more than 1 -- and emits
the gapped line `+ 4`. -/
theorem c5_gap_written_silently_in_release :
    run_main ⟨1000, false, false⟩
        [[99, 32, 55, 100, 48, 10], [43, 32, 53, 10]]
      = some ⟨⟨0, 4, false, 2000⟩,
          [[99, 32, 51, 101, 56, 10], [43, 32, 52, 10]], [4]⟩ ∧
    noGapFromB 0 [4] = false := by
  decide

/-- C5 as amended: with debug assertions compiled in (the configuration in
which the `debug_assert!` exists), every run that completes has written a
gap-free sequence of rebased event indices: each written index is at most one
above the running maximum of the previously written ones, starting from 0; a
would-be violation aborts the run instead of producing output. -/
theorem c5_no_gap_with_debug_assertions (cfg : Cfg) (lines : List (List Nat))
    (r : RunOut) (hdbg : cfg.debug_assertions = true)
    (h : run_main cfg lines = some r) : noGapFromB 0 r.written = true :=
  runFrom_written_nogap cfg lines initialState r hdbg h

/-- The flip followed by events `+ 1`, `+ 2`, threshold 1000. -/
def linesC5W : List (List Nat) :=
  [[99, 32, 55, 100, 48, 10], [43, 32, 49, 10], [43, 32, 50, 10]]

/-- The run result on `linesC5W`: indices 0 and 1 written. -/
def runC5W : RunOut :=
  ⟨⟨0, 1, false, 2000⟩,
   [[99, 32, 51, 101, 56, 10], [43, 32, 48, 10], [43, 32, 49, 10]], [0, 1]⟩

/-- Witness for C5 at a concrete input: the debug-mode run on `linesC5W`
writes the gap-free sequence `[0, 1]`. -/
theorem c5_no_gap_with_debug_assertions_witness :
    noGapFromB 0 runC5W.written = true :=
  c5_no_gap_with_debug_assertions ⟨1000, false, true⟩ linesC5W runC5W rfl
    (by decide)

/-- The flip followed by the event `+ 2`, threshold 1000. -/
def linesC4W : List (List Nat) :=
  [[99, 32, 55, 100, 48, 10], [43, 32, 50, 10]]

/-- The run result on `linesC4W`: the first written index is 1, not 0. -/
def runC4W : RunOut :=
  ⟨⟨0, 1, false, 2000⟩, [[99, 32, 51, 101, 56, 10], [43, 32, 49, 10]], [1]⟩

/-- C4 counterexample: the first event index written after the transition is
NOT always 0.  On `c 7d0` then `+ 2` with threshold 1000 (debug assertions
on: 1 is at most the initial maximum 0 plus 1, so the assert passes), the
first -- and only -- written rebased index is 1. -/
theorem c4_first_written_index_can_be_one :
    run_main ⟨1000, false, true⟩ linesC4W = some runC4W ∧
    runC4W.written.head? = some 1 ∧ (1 : Nat) ≠ 0 := by
  decide

/-- C4 as amended: with debug assertions compiled in, the first event index
written after the skip/emit transition is at most 1 (the `debug_assert!`
admits 0 or 1 against the initial maximum 0; release builds do not check at
all). -/
theorem c4_first_written_index_at_most_one (cfg : Cfg)
    (lines : List (List Nat)) (r : RunOut) (v : Nat)
    (hdbg : cfg.debug_assertions = true) (h : run_main cfg lines = some r)
    (hw : r.written.head? = some v) : v ≤ 1 := by
  have h2 := runFrom_written_nogap cfg lines initialState r hdbg h
  rcases hww : r.written with _ | ⟨w, ws⟩
  · rw [hww] at hw
    exact absurd hw (by simp)
  · rw [hww] at hw h2
    injection hw with hv
    subst hv
    simp only [noGapFromB, initialState] at h2
    have h3 := (Bool.and_eq_true _ _).mp h2
    simpa using h3.1

/-- Witness for C4 at a concrete input: the first index written on `linesC4W`
is 1, which is at most 1. -/
theorem c4_first_written_index_at_most_one_witness : (1 : Nat) ≤ 1 :=
  c4_first_written_index_at_most_one ⟨1000, false, true⟩ linesC4W runC4W 1 rfl
    (by decide) rfl

/-- A byte that is a nonzero lowercase hex digit: `1`-`9` or `a`-`f`. -/
def isNZHexDigit (c : Nat) : Bool :=
  (49 ≤ c && c ≤ 57) || (97 ≤ c && c ≤ 102)

/-- A canonical nonzero hex numeral as `write_hex` emits it: nonempty, at
most 16 digits, all nonzero digits (`write_hex` never emits a zero nibble). -/
def isCanonicalNZ (s : List Nat) : Bool :=
  !s.isEmpty && decide (s.length ≤ 16) && s.all isNZHexDigit

/-- A canonical event-index numeral: `0`, or a canonical nonzero numeral. -/
def isCanonicalArg (s : List Nat) : Bool :=
  s == [48] || isCanonicalNZ s

/-- A time-command line in the shape the filter itself emits:
`c`, space, canonical nonzero numeral, newline. -/
def isTimeLineR (l : List Nat) : Bool :=
  match l with
  | 99 :: 32 :: body => body.getLast? == some 10 && isCanonicalNZ body.dropLast
  | _ => false

/-- An event line in the shape the filter itself emits: plus or minus, space,
canonical index numeral, newline. -/
def isEventLineR (l : List Nat) : Bool :=
  match l with
  | 43 :: 32 :: body => body.getLast? == some 10 && isCanonicalArg body.dropLast
  | 45 :: 32 :: body => body.getLast? == some 10 && isCanonicalArg body.dropLast
  | _ => false

/-- Any line the event/time handling does not touch: an `a` line, or a line
whose leading byte is none of `c`, plus, minus. -/
def isOtherLineR (l : List Nat) : Bool :=
  match l.head? with
  | some 97 => true
  | some hd => decide (hd ≠ 99) && decide (hd ≠ 43) && decide (hd ≠ 45)
  | none => false

/-- A line of an already-rebased, fully-emitted trace: one of the three
shapes above. -/
def isRebasedLine (l : List Nat) : Bool :=
  isTimeLineR l || isEventLineR l || isOtherLineR l

/-- What a zero-threshold re-run does to one line of an already-rebased
trace: event lines with index 0 disappear, every other event line has its
index decremented by one, everything else is untouched. -/
def rewriteLine (l : List Nat) : List Nat :=
  match l with
  | 43 :: 32 :: body =>
    (match parse_hex body.dropLast with
     | some 0 => []
     | some v => 43 :: 32 :: (write_hex (v - 1) ++ [10])
     | none => l)
  | 45 :: 32 :: body =>
    (match parse_hex body.dropLast with
     | some 0 => []
     | some v => 45 :: 32 :: (write_hex (v - 1) ++ [10])
     | none => l)
  | _ => l

/-- Disjoint-bits special case of `or`-as-addition used by `parse_hex`:
a nibble or-ed below a multiple of 16 just adds. -/
theorem mul16_lor_eq_add (a d : Nat) (hd : d < 16) :
    (a * 16) ||| d = a * 16 + d := by
  apply Nat.eq_of_testBit_eq
  intro i
  rw [Nat.testBit_lor]
  rcases Nat.lt_or_ge i 4 with h | h
  · interval_cases i <;>
    · rw [show Nat.testBit (a * 16) _ = false from by
        simp only [Nat.testBit_to_div_mod]
        apply decide_eq_false
        omega]
      simp only [Bool.false_or, Nat.testBit_to_div_mod]
      rw [decide_eq_decide]
      omega
  · obtain ⟨j, rfl⟩ := Nat.exists_eq_add_of_le h
    have h16 : Nat.testBit d (4 + j) = false := Nat.testBit_lt_two_pow (by
      calc d < 16 := hd
      _ ≤ 2 ^ (4 + j) := by
            have h2 : (16 : Nat) = 2 ^ 4 := by norm_num
            rw [h2]
            exact Nat.pow_le_pow_right (by norm_num) (by omega))
    rw [h16]
    have e1 : Nat.testBit (a * 16 + d) (4 + j)
        = Nat.testBit ((a * 16 + d) / 2 ^ 4) j := by
      rw [← Nat.shiftRight_eq_div_pow, Nat.testBit_shiftRight]
    have e2 : Nat.testBit (a * 16) (4 + j)
        = Nat.testBit ((a * 16) / 2 ^ 4) j := by
      rw [← Nat.shiftRight_eq_div_pow, Nat.testBit_shiftRight]
    rw [e1, e2]
    have e3 : (a * 16 + d) / 2 ^ 4 = a * 16 / 2 ^ 4 := by omega
    rw [e3]
    simp

/-- A parsed hex digit value is below 16. -/
theorem hexDigitVal_lt (c d : Nat) (h : hexDigitVal c = some d) : d < 16 := by
  unfold hexDigitVal at h
  split_ifs at h <;> (injection h with h2; omega)

/-- A nonzero lowercase hex digit byte parses to a digit value between 1 and
15 that `hexNibbleChar` maps back to the same byte. -/
theorem nz_digit_round_trip (c : Nat) (h : isNZHexDigit c = true) :
    ∃ d, hexDigitVal c = some d ∧ 1 ≤ d ∧ d < 16 ∧ hexNibbleChar d = c := by
  simp only [isNZHexDigit, Bool.or_eq_true, Bool.and_eq_true,
    decide_eq_true_eq] at h
  unfold hexDigitVal hexNibbleChar
  rcases h with ⟨h1, h2⟩ | ⟨h1, h2⟩
  · refine ⟨c - 48, ?_, by omega, by omega, ?_⟩
    · rw [if_pos (by omega)]
    · rw [if_pos (by omega)]
      omega
  · refine ⟨10 + (c - 97), ?_, by omega, by omega, ?_⟩
    · rw [if_neg (by omega), if_pos (by omega)]
    · rw [if_neg (by omega)]
      omega

/-- The plain base-16 value of a digit list, most significant first. -/
def valD (ds : List Nat) : Nat :=
  ds.foldl (fun a d => a * 16 + d) 0

/-- The digit values of a list of hex digit bytes. -/
def digitsOf (s : List Nat) : List Nat :=
  s.map (fun c => (hexDigitVal c).getD 0)

/-- The `parse_hex` fold computes the plain base-16 value as long as all
bytes are valid digits and no overflow occurs: with at most 16 digits and a
small enough accumulator, the wrap-around modulus and the bitwise or are
invisible. -/
theorem parse_hex_fold (s : List Nat) :
    ∀ rv : Nat, (∀ c ∈ s, (hexDigitVal c).isSome) → s.length ≤ 16 →
      rv + 1 ≤ 16 ^ (16 - s.length) →
      s.foldl
        (fun acc c =>
          match acc, hexDigitVal c with
          | some rv2, some d => some ((rv2 * 16 % 2 ^ 64) ||| d)
          | _, _ => none)
        (some rv)
      = some (s.foldl (fun a c => a * 16 + (hexDigitVal c).getD 0) rv) := by
  induction s with
  | nil => intro rv hval hlen hrv; rfl
  | cons c cs ih =>
    intro rv hval hlen hrv
    obtain ⟨d, hd⟩ := Option.isSome_iff_exists.mp
      (hval c (List.mem_cons_self c cs))
    have hd16 : d < 16 := hexDigitVal_lt c d hd
    simp only [List.length_cons] at hlen hrv
    have hcs : cs.length ≤ 16 := by omega
    have hpow : (16 : Nat) ^ (16 - (cs.length + 1)) * 16
        ≤ 16 ^ (16 - cs.length) := by
      rw [← pow_succ]
      exact Nat.pow_le_pow_right (by norm_num) (by omega)
    have hstep : (rv + 1) * 16 ≤ 16 ^ (16 - cs.length) := by
      calc (rv + 1) * 16 ≤ 16 ^ (16 - (cs.length + 1)) * 16 :=
            Nat.mul_le_mul_right 16 hrv
        _ ≤ 16 ^ (16 - cs.length) := hpow
    have hrv16 : rv * 16 < 2 ^ 64 := by
      have h2 : (16 : Nat) ^ (16 - cs.length) ≤ 2 ^ 64 := by
        calc (16 : Nat) ^ (16 - cs.length) ≤ 16 ^ 16 :=
              Nat.pow_le_pow_right (by norm_num) (by omega)
          _ = 2 ^ 64 := by norm_num
      have h5 : rv * 16 < (rv + 1) * 16 :=
        (Nat.mul_lt_mul_right (by norm_num)).mpr (Nat.lt_succ_self rv)
      exact lt_of_lt_of_le h5 (le_trans hstep h2)
    simp only [List.foldl_cons, hd]
    rw [Nat.mod_eq_of_lt hrv16, mul16_lor_eq_add rv d hd16]
    have hrv2 : rv * 16 + d + 1 ≤ 16 ^ (16 - cs.length) := by
      have h1 : rv * 16 + d + 1 ≤ (rv + 1) * 16 := by
        have : d + 1 ≤ 16 := by omega
        calc rv * 16 + d + 1 ≤ rv * 16 + 16 := by omega
          _ = (rv + 1) * 16 := by ring
      exact le_trans h1 hstep
    have := ih (rv * 16 + d) (fun x hx => hval x (List.mem_cons_of_mem c hx))
      hcs hrv2
    rw [this]
    rfl

/-- Upper bound of the base-16 fold. -/
theorem valD_fold_lt (ds : List Nat) :
    ∀ rv : Nat, (∀ d ∈ ds, d < 16) →
      ds.foldl (fun a d => a * 16 + d) rv < (rv + 1) * 16 ^ ds.length := by
  induction ds with
  | nil => intro rv h; simp
  | cons d ds ih =>
    intro rv h
    have hd : d < 16 := h d (List.mem_cons_self d ds)
    have := ih (rv * 16 + d) (fun x hx => h x (List.mem_cons_of_mem d hx))
    calc (d :: ds).foldl (fun a d => a * 16 + d) rv
        = ds.foldl (fun a d => a * 16 + d) (rv * 16 + d) := by
          simp [List.foldl_cons]
      _ < (rv * 16 + d + 1) * 16 ^ ds.length := this
      _ ≤ ((rv + 1) * 16) * 16 ^ ds.length := by
          have h1 : rv * 16 + d + 1 ≤ (rv + 1) * 16 := by
            calc rv * 16 + d + 1 ≤ rv * 16 + 16 := by omega
              _ = (rv + 1) * 16 := by ring
          exact Nat.mul_le_mul_right _ h1
      _ = (rv + 1) * 16 ^ (d :: ds).length := by
          rw [List.length_cons, pow_succ]
          ring

/-- Lower bound of the base-16 fold. -/
theorem valD_fold_ge (ds : List Nat) :
    ∀ rv : Nat, rv * 16 ^ ds.length ≤ ds.foldl (fun a d => a * 16 + d) rv := by
  induction ds with
  | nil => intro rv; simp
  | cons d ds ih =>
    intro rv
    calc rv * 16 ^ (d :: ds).length = (rv * 16) * 16 ^ ds.length := by
          rw [List.length_cons, pow_succ]
          ring
      _ ≤ (rv * 16 + d) * 16 ^ ds.length := Nat.mul_le_mul_right _ (by omega)
      _ ≤ ds.foldl (fun a d => a * 16 + d) (rv * 16 + d) := ih (rv * 16 + d)
      _ = (d :: ds).foldl (fun a d => a * 16 + d) rv := by
          simp [List.foldl_cons]

/-- On a canonical nonzero numeral, `parse_hex` computes the plain base-16
value of the digit list. -/
theorem parse_hex_canonical (s : List Nat) (h : isCanonicalNZ s = true) :
    parse_hex s = some (valD (digitsOf s)) := by
  simp only [isCanonicalNZ, Bool.and_eq_true, decide_eq_true_eq,
    List.all_eq_true] at h
  obtain ⟨⟨hne, hlen⟩, hall⟩ := h
  have hvalid : ∀ c ∈ s, (hexDigitVal c).isSome := by
    intro c hc
    obtain ⟨d, hd, _, _, _⟩ := nz_digit_round_trip c (hall c hc)
    simp [hd]
  have hone : (0 : Nat) + 1 ≤ 16 ^ (16 - s.length) :=
    Nat.succ_le_of_lt (Nat.pos_pow_of_pos _ (by norm_num))
  unfold parse_hex
  rw [parse_hex_fold s 0 hvalid hlen hone]
  unfold valD digitsOf
  rw [List.foldl_map]

/-- Leading zero digits do not change the base-16 value. -/
theorem valD_replicate_zero (z : Nat) (ds : List Nat) :
    valD (List.replicate z 0 ++ ds) = valD ds := by
  unfold valD
  rw [List.foldl_append]
  have hz : ∀ w : Nat, (List.replicate w 0).foldl (fun a d => a * 16 + d) 0 = 0 := by
    intro w
    induction w with
    | zero => rfl
    | succ w ih => simpa [List.replicate_succ] using ih
  rw [hz z]

/-- A list of length 16 is a sixteen-element literal. -/
theorem exists_sixteen (l : List Nat) (h : l.length = 16) :
    ∃ d0 d1 d2 d3 d4 d5 d6 d7 d8 d9 d10 d11 d12 d13 d14 d15,
      l = [d0, d1, d2, d3, d4, d5, d6, d7, d8, d9, d10, d11, d12, d13, d14,
        d15] := by
  rcases l with _ | ⟨d0, l⟩; · simp at h
  rcases l with _ | ⟨d1, l⟩; · simp at h
  rcases l with _ | ⟨d2, l⟩; · simp at h
  rcases l with _ | ⟨d3, l⟩; · simp at h
  rcases l with _ | ⟨d4, l⟩; · simp at h
  rcases l with _ | ⟨d5, l⟩; · simp at h
  rcases l with _ | ⟨d6, l⟩; · simp at h
  rcases l with _ | ⟨d7, l⟩; · simp at h
  rcases l with _ | ⟨d8, l⟩; · simp at h
  rcases l with _ | ⟨d9, l⟩; · simp at h
  rcases l with _ | ⟨d10, l⟩; · simp at h
  rcases l with _ | ⟨d11, l⟩; · simp at h
  rcases l with _ | ⟨d12, l⟩; · simp at h
  rcases l with _ | ⟨d13, l⟩; · simp at h
  rcases l with _ | ⟨d14, l⟩; · simp at h
  rcases l with _ | ⟨d15, l⟩; · simp at h
  rcases l with _ | ⟨d16, l⟩
  · exact ⟨d0, d1, d2, d3, d4, d5, d6, d7, d8, d9, d10, d11, d12, d13, d14,
      d15, rfl⟩
  · simp only [List.length_cons] at h
    omega

/-- The sixteen big-endian nibbles of the value of sixteen digits are those
digits. -/
theorem nibs16_of_digits (d0 d1 d2 d3 d4 d5 d6 d7 d8 d9 d10 d11 d12 d13 d14
    d15 : Nat) (h0 : d0 < 16) (h1 : d1 < 16) (h2 : d2 < 16) (h3 : d3 < 16)
    (h4 : d4 < 16) (h5 : d5 < 16) (h6 : d6 < 16) (h7 : d7 < 16)
    (h8 : d8 < 16) (h9 : d9 < 16) (h10 : d10 < 16) (h11 : d11 < 16)
    (h12 : d12 < 16) (h13 : d13 < 16) (h14 : d14 < 16) (h15 : d15 < 16) :
    nibs16 (valD [d0, d1, d2, d3, d4, d5, d6, d7, d8, d9, d10, d11, d12, d13,
      d14, d15])
      = [d0, d1, d2, d3, d4, d5, d6, d7, d8, d9, d10, d11, d12, d13, d14,
        d15] := by
  have hv : valD [d0, d1, d2, d3, d4, d5, d6, d7, d8, d9, d10, d11, d12, d13,
      d14, d15]
      = d0 * 2 ^ 60 + d1 * 2 ^ 56 + d2 * 2 ^ 52 + d3 * 2 ^ 48 + d4 * 2 ^ 44
        + d5 * 2 ^ 40 + d6 * 2 ^ 36 + d7 * 2 ^ 32 + d8 * 2 ^ 28 + d9 * 2 ^ 24
        + d10 * 2 ^ 20 + d11 * 2 ^ 16 + d12 * 2 ^ 12 + d13 * 2 ^ 8
        + d14 * 2 ^ 4 + d15 := by
    simp only [valD, List.foldl_cons, List.foldl_nil]
    norm_num
    ring
  rw [hv]
  simp only [nibs16, List.cons.injEq, and_true]
  norm_num
  refine ⟨?_, ?_, ?_, ?_, ?_, ?_, ?_, ?_, ?_, ?_, ?_, ?_, ?_, ?_, ?_, ?_⟩ <;>
    omega

/-- High nibble of a big-endian byte, as a nibble of the whole value. -/
theorem hi_nib (n k : Nat) : n / k % 256 / 16 = n / (k * 16) % 16 := by
  rw [show (256 : Nat) = 16 * 16 from rfl, Nat.mod_mul_right_div_self,
    Nat.div_div_eq_div_mul]

/-- Low nibble of a big-endian byte, as a nibble of the whole value. -/
theorem lo_nib (n k : Nat) : n / k % 256 % 16 = n / k % 16 :=
  Nat.mod_mod_of_dvd _ (by norm_num)

/-- For a nonzero value, `write_hex` emits exactly the nonzero nibbles of the
sixteen big-endian nibbles, in order. -/
theorem write_hex_emit (n : Nat) (hn : n ≠ 0) :
    write_hex n = ((nibs16 n).map emitNibble).flatten := by
  have hb : (n == 0) = false := by simpa using hn
  unfold write_hex
  rw [hb]
  simp only [Bool.false_eq_true, if_false, u64_to_be_bytes, List.foldl_cons,
    List.foldl_nil]
  rw [hi_nib n (2 ^ 56), lo_nib n (2 ^ 56), hi_nib n (2 ^ 48),
    lo_nib n (2 ^ 48), hi_nib n (2 ^ 40), lo_nib n (2 ^ 40),
    hi_nib n (2 ^ 32), lo_nib n (2 ^ 32), hi_nib n (2 ^ 24),
    lo_nib n (2 ^ 24), hi_nib n (2 ^ 16), lo_nib n (2 ^ 16),
    hi_nib n (2 ^ 8), lo_nib n (2 ^ 8)]
  rw [show n % 256 / 16 = n / 2 ^ 4 % 16 from by
    rw [show (256 : Nat) = 16 * 16 from rfl, Nat.mod_mul_right_div_self]
    norm_num]
  rw [show n % 256 % 16 = n % 16 from Nat.mod_mod_of_dvd _ (by norm_num)]
  simp only [nibs16, List.map_cons, List.map_nil, List.flatten_cons,
    List.flatten_nil]
  norm_num [List.append_assoc]

/-- Zero nibbles emit nothing. -/
theorem flatten_emit_replicate (z : Nat) :
    ((List.replicate z 0).map emitNibble).flatten = [] := by
  induction z with
  | zero => rfl
  | succ z ih => simp [List.replicate_succ, emitNibble, ih]

/-- Nonzero nibbles emit exactly their hex characters. -/
theorem flatten_emit_nz (ds : List Nat) (h : ∀ d ∈ ds, 1 ≤ d) :
    ((ds.map emitNibble).flatten) = ds.map hexNibbleChar := by
  induction ds with
  | nil => rfl
  | cons d ds ih =>
    have hd : 1 ≤ d := h d (List.mem_cons_self d ds)
    have := ih (fun x hx => h x (List.mem_cons_of_mem d hx))
    simp only [List.map_cons, List.flatten_cons, this, emitNibble]
    rw [if_pos (by simpa using Nat.one_le_iff_ne_zero.mp hd)]
    rfl

/-- Mapping digit bytes to values and back to characters is the identity on
canonical nonzero numerals. -/
theorem map_digits_back (s : List Nat) (h : ∀ c ∈ s, isNZHexDigit c = true) :
    (digitsOf s).map hexNibbleChar = s := by
  induction s with
  | nil => rfl
  | cons c cs ih =>
    obtain ⟨d, hd, _, _, hback⟩ :=
      nz_digit_round_trip c (h c (List.mem_cons_self c cs))
    have := ih (fun x hx => h x (List.mem_cons_of_mem c hx))
    simp only [digitsOf, List.map_cons] at this ⊢
    rw [hd]
    simp only [Option.getD_some, hback, this]

/-- Round trip on canonical nonzero numerals: `parse_hex` yields a nonzero
`u64` value that `write_hex` prints back byte-identically.  This is a
restricted inverse -- it fails on numerals with zero digits, see the C1/C2
analysis. -/
theorem canonical_round_trip (s : List Nat) (h : isCanonicalNZ s = true) :
    ∃ v, parse_hex s = some v ∧ 1 ≤ v ∧ v < 2 ^ 64 ∧ write_hex v = s := by
  have hparse := parse_hex_canonical s h
  simp only [isCanonicalNZ, Bool.and_eq_true, decide_eq_true_eq,
    List.all_eq_true] at h
  obtain ⟨⟨hne, hlen⟩, hall⟩ := h
  have hdl : (digitsOf s).length = s.length := by simp [digitsOf]
  have hd16 : ∀ d ∈ digitsOf s, d < 16 := by
    intro d hd
    simp only [digitsOf, List.mem_map] at hd
    obtain ⟨c, hc, rfl⟩ := hd
    obtain ⟨d2, hd2, _, hd2lt, _⟩ := nz_digit_round_trip c (hall c hc)
    simpa [hd2] using hd2lt
  have hd1 : ∀ d ∈ digitsOf s, 1 ≤ d := by
    intro d hd
    simp only [digitsOf, List.mem_map] at hd
    obtain ⟨c, hc, rfl⟩ := hd
    obtain ⟨d2, hd2, hd2ge, _, _⟩ := nz_digit_round_trip c (hall c hc)
    simpa [hd2] using hd2ge
  have hvlt : valD (digitsOf s) < 2 ^ 64 := by
    have h1 := valD_fold_lt (digitsOf s) 0 hd16
    have h2 : (16 : Nat) ^ (digitsOf s).length ≤ 16 ^ 16 :=
      Nat.pow_le_pow_right (by norm_num) (by omega)
    have h3 : (16 : Nat) ^ 16 = 2 ^ 64 := by norm_num
    unfold valD
    calc (digitsOf s).foldl (fun a d => a * 16 + d) 0
        < (0 + 1) * 16 ^ (digitsOf s).length := h1
      _ = 16 ^ (digitsOf s).length := by ring
      _ ≤ 16 ^ 16 := h2
      _ = 2 ^ 64 := h3
  have hvge : 1 ≤ valD (digitsOf s) := by
    rcases hds : digitsOf s with _ | ⟨d, rest⟩
    · rw [hds, List.length_nil] at hdl
      rcases s with _ | ⟨c, cs⟩
      · simp at hne
      · simp at hdl
    · have hd : 1 ≤ d := hd1 d (by rw [hds]; exact List.mem_cons_self d rest)
      have := valD_fold_ge rest d
      have hge : d * 16 ^ rest.length ≤ valD (d :: rest) := by
        unfold valD
        simpa using valD_fold_ge rest (0 * 16 + d)
      have hpos : 1 ≤ d * 16 ^ rest.length :=
        Nat.one_le_iff_ne_zero.mpr (Nat.mul_ne_zero
          (Nat.one_le_iff_ne_zero.mp hd)
          (Nat.pos_iff_ne_zero.mp (Nat.pos_pow_of_pos _ (by norm_num))))
      exact le_trans hpos hge
  refine ⟨valD (digitsOf s), hparse, hvge, hvlt, ?_⟩
  have hpadlen : (List.replicate (16 - s.length) 0 ++ digitsOf s).length
      = 16 := by
    simp [hdl]
    omega
  obtain ⟨d0, d1, d2, d3, d4, d5, d6, d7, d8, d9, d10, d11, d12, d13, d14,
    d15, hpad⟩ := exists_sixteen _ hpadlen
  have hmem : ∀ d ∈ List.replicate (16 - s.length) 0 ++ digitsOf s, d < 16 := by
    intro d hd
    rcases List.mem_append.mp hd with h1 | h1
    · rw [List.eq_of_mem_replicate h1]
      norm_num
    · exact hd16 d h1
  have hnibs : nibs16 (valD (digitsOf s))
      = List.replicate (16 - s.length) 0 ++ digitsOf s := by
    rw [← valD_replicate_zero (16 - s.length) (digitsOf s), hpad]
    exact nibs16_of_digits d0 d1 d2 d3 d4 d5 d6 d7 d8 d9 d10 d11 d12 d13 d14
      d15
      (hmem d0 (by rw [hpad]; simp)) (hmem d1 (by rw [hpad]; simp))
      (hmem d2 (by rw [hpad]; simp)) (hmem d3 (by rw [hpad]; simp))
      (hmem d4 (by rw [hpad]; simp)) (hmem d5 (by rw [hpad]; simp))
      (hmem d6 (by rw [hpad]; simp)) (hmem d7 (by rw [hpad]; simp))
      (hmem d8 (by rw [hpad]; simp)) (hmem d9 (by rw [hpad]; simp))
      (hmem d10 (by rw [hpad]; simp)) (hmem d11 (by rw [hpad]; simp))
      (hmem d12 (by rw [hpad]; simp)) (hmem d13 (by rw [hpad]; simp))
      (hmem d14 (by rw [hpad]; simp)) (hmem d15 (by rw [hpad]; simp))
  rw [write_hex_emit _ (by omega), hnibs, List.map_append,
    List.flatten_append, flatten_emit_replicate, flatten_emit_nz _ hd1,
    map_digits_back s hall]
  rfl

/-- Hex digit bytes are not ASCII whitespace. -/
theorem nz_digit_not_ws (c : Nat) (h : isNZHexDigit c = true) :
    isAsciiWhitespace c = false := by
  simp only [isNZHexDigit, Bool.or_eq_true, Bool.and_eq_true,
    decide_eq_true_eq] at h
  simp only [isAsciiWhitespace, Bool.or_eq_false_iff, beq_eq_false_iff_ne]
  omega

/-- The byte `0` (48) is not ASCII whitespace. -/
theorem digit48_not_ws : isAsciiWhitespace 48 = false := by decide

/-- `takeWhile` of "not a space" over a space-free list is the identity. -/
theorem takeWhile_no_space (s : List Nat) (h : ∀ c ∈ s, c ≠ 32) :
    s.takeWhile (fun c => c != 32) = s := by
  induction s with
  | nil => rfl
  | cons c cs ih =>
    rw [List.takeWhile_cons,
      if_pos (by simpa using h c (List.mem_cons_self c cs)),
      ih (fun x hx => h x (List.mem_cons_of_mem c hx))]

/-- A list with a known last element is its `dropLast` plus that element. -/
theorem eq_dropLast_append (l : List Nat) (b : Nat)
    (h : l.getLast? = some b) : l = l.dropLast ++ [b] := by
  induction l with
  | nil => simp at h
  | cons x xs ih =>
    cases hx : xs with
    | nil =>
      subst hx
      simp only [List.getLast?_singleton] at h
      injection h with h2
      subst h2
      rfl
    | cons y ys =>
      subst hx
      rw [List.getLast?_cons_cons] at h
      have := ih h
      calc x :: y :: ys = x :: (y :: ys) := rfl
        _ = x :: ((y :: ys).dropLast ++ [b]) := by rw [← this]
        _ = (x :: y :: ys).dropLast ++ [b] := by
            rw [List.dropLast_cons₂]
            rfl

/-- The second space-separated chunk of a rebased line `tag SP s NL` is
exactly `s`, provided `s` is nonempty and free of spaces and whitespace. -/
theorem argOf_tagged (tag : Nat) (s : List Nat) (htag : tag ≠ 32)
    (hne : s ≠ []) (hnw : ∀ c ∈ s, isAsciiWhitespace c = false) :
    argOf (tag :: 32 :: (s ++ [10])) = some s := by
  have hns : ∀ c ∈ s, c ≠ 32 := by
    intro c hc heq
    have := hnw c hc
    rw [heq] at this
    simp [isAsciiWhitespace] at this
  obtain ⟨c0, t0, hrev⟩ : ∃ c0 t0, s.reverse = c0 :: t0 := by
    cases hsr : s.reverse with
    | nil => exact absurd (List.reverse_eq_nil_iff.mp hsr) hne
    | cons c0 t0 => exact ⟨c0, t0, rfl⟩
  have hc0 : isAsciiWhitespace c0 = false :=
    hnw c0 (List.mem_reverse.mp (by rw [hrev]; exact List.mem_cons_self c0 t0))
  have htrim : trim_ascii_end (tag :: 32 :: (s ++ [10])) = tag :: 32 :: s := by
    unfold trim_ascii_end
    rw [show (tag :: 32 :: (s ++ [10])).reverse
        = 10 :: (s.reverse ++ [32, tag]) from by simp]
    rw [List.dropWhile_cons, if_pos (by decide)]
    rw [hrev, List.cons_append, List.dropWhile_cons, if_neg (by simp [hc0])]
    rw [← List.cons_append, ← hrev]
    simp
  unfold argOf
  rw [htrim]
  rw [show (tag :: 32 :: s).dropWhile (fun c => c != 32)
      = 32 :: s from by
    rw [List.dropWhile_cons, if_pos (by simpa using htag),
      List.dropWhile_cons, if_neg (by simp)]]
  show some (s.takeWhile (fun c => c != 32)) = some s
  rw [takeWhile_no_space s hns]

/-- `rewriteLine` only touches event lines. -/
theorem rewriteLine_other (l : List Nat) (hd : Nat)
    (hh : l.head? = some hd) (h43 : hd ≠ 43) (h45 : hd ≠ 45) :
    rewriteLine l = l := by
  unfold rewriteLine
  split
  next body =>
    simp only [List.head?_cons] at hh
    injection hh with hh2
    exact absurd hh2.symm h43
  next body =>
    simp only [List.head?_cons] at hh
    injection hh with hh2
    exact absurd hh2.symm h45
  next => rfl

/-- Wrapping subtraction of zero is the identity on `u64` values. -/
theorem u64_sub_zero (v : Nat) (h : v < 2 ^ 64) : u64_sub v 0 = v := by
  unfold u64_sub
  rw [Nat.zero_mod, Nat.sub_zero, Nat.add_mod_right, Nat.mod_eq_of_lt h]

/-- With threshold 0 and preserve-time off, a canonical time line is
reproduced verbatim and leaves the run emitting, the correction offset and
largest written index untouched. -/
theorem processLine_time_rebased (cfg : Cfg) (hskip : cfg.skip_timestamp = 0)
    (hpt : cfg.preserve_time = false) (st : St) (s : List Nat)
    (hcanon : isCanonicalNZ s = true) :
    ∃ v, parse_hex s = some v ∧
      processLine cfg st (99 :: 32 :: (s ++ [10]))
        = some ⟨⟨st.allocation_index_correction,
            st.largest_written_allocation_index, false, v⟩,
            99 :: 32 :: (s ++ [10]), none⟩ := by
  obtain ⟨v, hv, hv1, hvlt, hwrite⟩ := canonical_round_trip s hcanon
  have hsne : s ≠ [] := by
    intro he
    rw [he] at hcanon
    simp [isCanonicalNZ] at hcanon
  have hnw : ∀ c ∈ s, isAsciiWhitespace c = false := by
    intro c hc
    apply nz_digit_not_ws
    simp only [isCanonicalNZ, Bool.and_eq_true, List.all_eq_true] at hcanon
    exact hcanon.2 c hc
  have harg : argOf (99 :: 32 :: (s ++ [10])) = some s :=
    argOf_tagged 99 s (by omega) hsne hnw
  refine ⟨v, hv, ?_⟩
  have hdec : decide (cfg.skip_timestamp < v) = true := by
    rw [hskip]
    exact decide_eq_true (by omega)
  cases hst : st.is_skipping <;>
    (simp [processLine, harg, hv, hdec, hpt, hst, hskip, u64_sub_zero v hvlt,
      hwrite]
     try omega)

/-- With debug assertions off and the run emitting with correction offset 0,
a canonical nonzero event line is rewritten to its predecessor index. -/
theorem processLine_event_rebased (cfg : Cfg)
    (hdbg : cfg.debug_assertions = false) (st : St)
    (hsk : st.is_skipping = false)
    (hcorr : st.allocation_index_correction = 0) (tag : Nat)
    (htag : tag = 43 ∨ tag = 45) (s : List Nat)
    (hcanon : isCanonicalNZ s = true) :
    ∃ v, parse_hex s = some v ∧ 1 ≤ v ∧
      processLine cfg st (tag :: 32 :: (s ++ [10]))
        = some ⟨⟨st.allocation_index_correction,
            max (v - 1) st.largest_written_allocation_index,
            st.is_skipping, st.current_abs_timestamp_ms⟩,
            tag :: 32 :: (write_hex (v - 1) ++ [10]), some (v - 1)⟩ := by
  obtain ⟨v, hv, hv1, hvlt, hwrite⟩ := canonical_round_trip s hcanon
  have hsne : s ≠ [] := by
    intro he
    rw [he] at hcanon
    simp [isCanonicalNZ] at hcanon
  have hnw : ∀ c ∈ s, isAsciiWhitespace c = false := by
    intro c hc
    apply nz_digit_not_ws
    simp only [isCanonicalNZ, Bool.and_eq_true, List.all_eq_true] at hcanon
    exact hcanon.2 c hc
  have harg : argOf (tag :: 32 :: (s ++ [10])) = some s :=
    argOf_tagged tag s (by omega) hsne hnw
  refine ⟨v, hv, hv1, ?_⟩
  rcases htag with h | h <;>
    (subst h
     simp [processLine, harg, hv, hsk, hcorr, hdbg]
     try omega)

/-- An index-0 event line is dropped without touching the state: 0 never
exceeds the correction offset. -/
theorem processLine_event_zero_rebased (cfg : Cfg) (st : St) (tag : Nat)
    (htag : tag = 43 ∨ tag = 45) :
    processLine cfg st (tag :: 32 :: ([48] ++ [10])) = some ⟨st, [], none⟩ := by
  have harg : argOf (tag :: 32 :: ([48] ++ [10])) = some [48] :=
    argOf_tagged tag [48] (by omega) (by simp)
      (by intro c hc; simp only [List.mem_singleton] at hc; rw [hc]; decide)
  simp only [List.cons_append, List.nil_append] at harg
  rcases htag with h | h <;>
    (subst h
     simp [processLine, harg, show parse_hex [48] = some 0 from rfl])

/-- While emitting, an `a` line passes through verbatim. -/
theorem processLine_a_emitting (cfg : Cfg) (st : St)
    (hsk : st.is_skipping = false) (l : List Nat)
    (hhead : l.head? = some 97) :
    processLine cfg st l = some ⟨st, l, none⟩ := by
  simp [processLine, hhead, hsk]

/-- Core of the re-run analysis: from any emitting state with correction
offset 0, a zero-threshold, preserve-time-off, release-configuration run over
rebased-form lines succeeds and transforms every line by `rewriteLine`. -/
theorem runFrom_rebased (lines : List (List Nat)) :
    ∀ st : St, st.is_skipping = false → st.allocation_index_correction = 0 →
      (∀ l ∈ lines, isRebasedLine l = true) →
      ∃ r, runFrom ⟨0, false, false⟩ st lines = some r ∧
        r.chunks = lines.map rewriteLine := by
  induction lines with
  | nil =>
    intro st h1 h2 h3
    exact ⟨⟨st, [], []⟩, rfl, rfl⟩
  | cons l rest ih =>
    intro st hsk hcorr hall
    have hrest : ∀ x ∈ rest, isRebasedLine x = true :=
      fun x hx => hall x (List.mem_cons_of_mem l hx)
    have hl := hall l (List.mem_cons_self l rest)
    simp only [isRebasedLine, Bool.or_eq_true] at hl
    rcases hl with (htime | hevent) | hother
    · unfold isTimeLineR at htime
      split at htime
      next body =>
        simp only [Bool.and_eq_true, beq_iff_eq] at htime
        obtain ⟨hlast, hcanon⟩ := htime
        have hbody : body = body.dropLast ++ [10] :=
          eq_dropLast_append body 10 hlast
        obtain ⟨v, hv, hstep⟩ :=
          processLine_time_rebased ⟨0, false, false⟩ rfl rfl st
            body.dropLast hcanon
        rw [← hbody] at hstep
        obtain ⟨r2, hr2, hchunks⟩ :=
          ih ⟨st.allocation_index_correction,
            st.largest_written_allocation_index, false, v⟩ rfl hcorr hrest
        refine ⟨⟨r2.st, (99 :: 32 :: body) :: r2.chunks, r2.written⟩, ?_, ?_⟩
        · simp only [runFrom, hstep, hr2]
          rfl
        · simp only [List.map_cons]
          rw [rewriteLine_other (99 :: 32 :: body) 99 rfl (by omega)
            (by omega), hchunks]
      next => exact absurd htime (by simp)
    · unfold isEventLineR at hevent
      split at hevent
      next body =>
        simp only [Bool.and_eq_true, beq_iff_eq] at hevent
        obtain ⟨hlast, hcanon⟩ := hevent
        have hbody : body = body.dropLast ++ [10] :=
          eq_dropLast_append body 10 hlast
        simp only [isCanonicalArg, Bool.or_eq_true, beq_iff_eq] at hcanon
        rcases hcanon with hzero | hcanon
        · have hzstep :=
            processLine_event_zero_rebased ⟨0, false, false⟩ st 43
              (Or.inl rfl)
          rw [← hzero, ← hbody] at hzstep
          obtain ⟨r2, hr2, hchunks⟩ := ih st hsk hcorr hrest
          refine ⟨⟨r2.st, [] :: r2.chunks, r2.written⟩, ?_, ?_⟩
          · simp only [runFrom, hzstep, hr2]
            rfl
          · simp only [List.map_cons]
            rw [show rewriteLine (43 :: 32 :: body) = [] from by
              simp [rewriteLine, hzero, show parse_hex [48] = some 0 from
                rfl]]
            rw [hchunks]
        · obtain ⟨v, hv, hv1, hstep⟩ :=
            processLine_event_rebased ⟨0, false, false⟩ rfl st hsk hcorr 43
              (Or.inl rfl) body.dropLast hcanon
          rw [← hbody] at hstep
          obtain ⟨r2, hr2, hchunks⟩ :=
            ih ⟨st.allocation_index_correction,
              max (v - 1) st.largest_written_allocation_index,
              st.is_skipping, st.current_abs_timestamp_ms⟩ hsk hcorr hrest
          refine ⟨⟨r2.st,
            (43 :: 32 :: (write_hex (v - 1) ++ [10])) :: r2.chunks,
            (v - 1) :: r2.written⟩, ?_, ?_⟩
          · simp only [runFrom, hstep, hr2]
            rfl
          · simp only [List.map_cons]
            rcases v with _ | v2
            · omega
            · rw [show rewriteLine (43 :: 32 :: body)
                  = 43 :: 32 :: (write_hex (v2 + 1 - 1) ++ [10]) from by
                simp [rewriteLine, hv]]
              rw [hchunks]
      next body =>
        simp only [Bool.and_eq_true, beq_iff_eq] at hevent
        obtain ⟨hlast, hcanon⟩ := hevent
        have hbody : body = body.dropLast ++ [10] :=
          eq_dropLast_append body 10 hlast
        simp only [isCanonicalArg, Bool.or_eq_true, beq_iff_eq] at hcanon
        rcases hcanon with hzero | hcanon
        · have hzstep :=
            processLine_event_zero_rebased ⟨0, false, false⟩ st 45
              (Or.inr rfl)
          rw [← hzero, ← hbody] at hzstep
          obtain ⟨r2, hr2, hchunks⟩ := ih st hsk hcorr hrest
          refine ⟨⟨r2.st, [] :: r2.chunks, r2.written⟩, ?_, ?_⟩
          · simp only [runFrom, hzstep, hr2]
            rfl
          · simp only [List.map_cons]
            rw [show rewriteLine (45 :: 32 :: body) = [] from by
              simp [rewriteLine, hzero, show parse_hex [48] = some 0 from
                rfl]]
            rw [hchunks]
        · obtain ⟨v, hv, hv1, hstep⟩ :=
            processLine_event_rebased ⟨0, false, false⟩ rfl st hsk hcorr 45
              (Or.inr rfl) body.dropLast hcanon
          rw [← hbody] at hstep
          obtain ⟨r2, hr2, hchunks⟩ :=
            ih ⟨st.allocation_index_correction,
              max (v - 1) st.largest_written_allocation_index,
              st.is_skipping, st.current_abs_timestamp_ms⟩ hsk hcorr hrest
          refine ⟨⟨r2.st,
            (45 :: 32 :: (write_hex (v - 1) ++ [10])) :: r2.chunks,
            (v - 1) :: r2.written⟩, ?_, ?_⟩
          · simp only [runFrom, hstep, hr2]
            rfl
          · simp only [List.map_cons]
            rcases v with _ | v2
            · omega
            · rw [show rewriteLine (45 :: 32 :: body)
                  = 45 :: 32 :: (write_hex (v2 + 1 - 1) ++ [10]) from by
                simp [rewriteLine, hv]]
              rw [hchunks]
      next => exact absurd hevent (by simp)
    · unfold isOtherLineR at hother
      split at hother
      next heq =>
        have hstep := processLine_a_emitting ⟨0, false, false⟩ st hsk l heq
        obtain ⟨r2, hr2, hchunks⟩ := ih st hsk hcorr hrest
        refine ⟨⟨r2.st, l :: r2.chunks, r2.written⟩, ?_, ?_⟩
        · simp only [runFrom, hstep, hr2]
          rfl
        · simp only [List.map_cons]
          rw [rewriteLine_other l 97 heq (by omega) (by omega), hchunks]
      next hd hne heq =>
        simp only [Bool.and_eq_true, decide_eq_true_eq] at hother
        obtain ⟨⟨h99, h43⟩, h45⟩ := hother
        have hstep :=
          processLine_passthrough ⟨0, false, false⟩ st l hd heq h99
            (fun h => hne h) h43 h45
        obtain ⟨r2, hr2, hchunks⟩ := ih st hsk hcorr hrest
        refine ⟨⟨r2.st, l :: r2.chunks, r2.written⟩, ?_, ?_⟩
        · simp only [runFrom, hstep, hr2]
          rfl
        · simp only [List.map_cons]
          rw [rewriteLine_other l hd heq h43 h45, hchunks]
      next => exact absurd hother (by simp)

/-- C3 as amended: re-running the filter with skip threshold 0 (preserve-time
off, release configuration) on an already-rebased, fully-emitted trace --- a
trace whose first line is a time command and whose lines all have the shape
the filter itself emits --- does NOT reproduce the input byte-identically:
it drops every index-0 event line and decrements every other event index by
one (`rewriteLine`), leaving time, `a`, and pass-through lines verbatim.
The output is byte-identical exactly when no event line is present. -/
theorem c3_zero_skip_rewrites_rebased_trace (lines : List (List Nat))
    (hall : ∀ l ∈ lines, isRebasedLine l = true)
    (hfirst : (match lines with
      | [] => true
      | l0 :: _ => isTimeLineR l0) = true) :
    (run_main ⟨0, false, false⟩ lines).map RunOut.chunks
      = some (lines.map rewriteLine) := by
  cases lines with
  | nil => rfl
  | cons l0 rest =>
    have hft : isTimeLineR l0 = true := hfirst
    unfold isTimeLineR at hft
    split at hft
    next body =>
      simp only [Bool.and_eq_true, beq_iff_eq] at hft
      obtain ⟨hlast, hcanon⟩ := hft
      have hbody : body = body.dropLast ++ [10] :=
        eq_dropLast_append body 10 hlast
      obtain ⟨v, hv, hstep⟩ :=
        processLine_time_rebased ⟨0, false, false⟩ rfl rfl initialState
          body.dropLast hcanon
      rw [← hbody] at hstep
      have hrest : ∀ x ∈ rest, isRebasedLine x = true :=
        fun x hx => hall x (List.mem_cons_of_mem _ hx)
      obtain ⟨r2, hr2, hchunks⟩ :=
        runFrom_rebased rest ⟨initialState.allocation_index_correction,
          initialState.largest_written_allocation_index, false, v⟩ rfl rfl
          hrest
      unfold run_main
      simp only [runFrom, hstep, hr2, Option.map_some]
      simp [hchunks,
        rewriteLine_other (99 :: 32 :: body) 99 rfl (by omega) (by omega)]
    next => exact absurd hft (by simp)

/-- A rebased trace: `c 1`, `+ 0`, `+ 2`, `a x`, `s y`. -/
def linesC3W : List (List Nat) :=
  [[99, 32, 49, 10], [43, 32, 48, 10], [43, 32, 50, 10], [97, 32, 120, 10],
   [115, 32, 121, 10]]

/-- Witness for C3 at a concrete rebased trace: the re-run drops `+ 0`,
turns `+ 2` into `+ 1`, and keeps the other lines. -/
theorem c3_zero_skip_rewrites_rebased_trace_witness :
    (run_main ⟨0, false, false⟩ linesC3W).map RunOut.chunks
      = some (linesC3W.map rewriteLine) :=
  c3_zero_skip_rewrites_rebased_trace linesC3W (by decide) (by decide)

/-- An original trace `+ 5`, `c 1`, `+ 6` whose zero-threshold filter output
is `linesC3Y`. -/
def linesC3X : List (List Nat) :=
  [[43, 32, 53, 10], [99, 32, 49, 10], [43, 32, 54, 10]]

/-- The trace `c 1`, `+ 0`: an actual filter output (of `linesC3X` at
threshold 0), already rebased and fully emitted. -/
def linesC3Y : List (List Nat) :=
  [[99, 32, 49, 10], [43, 32, 48, 10]]

/-- C3 counterexample: filtering `linesC3X` with threshold 0 yields exactly
the bytes of `linesC3Y` (so `linesC3Y` is an already-rebased, fully-emitted
trace with no line before its first time command), yet re-running the filter
with threshold 0 on `linesC3Y` yields only `c 1` --- the `+ 0` line is
dropped, so the run is not idempotent. -/
theorem c3_zero_skip_not_idempotent :
    runOutput ⟨0, false, false⟩ linesC3X = some linesC3Y.flatten ∧
    runOutput ⟨0, false, false⟩ linesC3Y = some [99, 32, 49, 10] ∧
    [99, 32, 49, 10] ≠ linesC3Y.flatten := by
  decide
